import Mathlib

/-!
# Verification of the csvql synchronization core

A shallow embedding of the csvql repository (Go): the loader's table-name
resolution and column sanitization (`loader/loader.go`), the SQLite-backed
store (`db/db.go`: `Manager`, `NeedsUpdate`, `LoadFile`, `RemoveTable`,
`RemoveTableByPath`, `RenameTable`, `ListTables`, `GetTableInfo`, `Query`),
and the watcher's debounce loop and per-path reconciliation
(`watcher/watcher.go`: `watch`, `processFile`).

Strings are Lean `String`s; file paths use `/` as the separator (the
platform separator on the reference platform).  Database effects are
embedded as pure state transitions on an explicit store state; engine-level
failures (I/O errors and the like) are injected through explicit failure
parameters, and the documented transaction semantics of `database/sql` +
SQLite (a transaction's writes become visible only at `Commit`, and are
discarded on `Rollback`) are embedded by publishing a transaction-local
state only on the success path.
-/

namespace Csvql

/-! ## Association lists

The Go code keeps a `map[string]int64` cache and SQL tables keyed by
`table_name`.  Both are embedded as association lists; SQL `DELETE`
statements remove every matching row, map deletion removes the key. -/

def alookup {β : Type} (k : String) : List (String × β) → Option β
  | [] => none
  | e :: t => if e.1 = k then some e.2 else alookup k t

def aerase {β : Type} (k : String) : List (String × β) → List (String × β)
  | [] => []
  | e :: t => if e.1 = k then aerase k t else e :: aerase k t

def ainsert {β : Type} (k : String) (v : β) (l : List (String × β)) : List (String × β) :=
  aerase k l ++ [(k, v)]

theorem alookup_append {β : Type} (k : String) (l₁ l₂ : List (String × β)) :
    alookup k (l₁ ++ l₂) = ((alookup k l₁).orElse (fun _ => alookup k l₂)) := by
  induction l₁ with
  | nil => simp [alookup, Option.orElse]
  | cons e t ih =>
    by_cases h : e.1 = k <;> simp [alookup, h, ih, Option.orElse]

theorem alookup_aerase_self {β : Type} (k : String) (l : List (String × β)) :
    alookup k (aerase k l) = none := by
  induction l with
  | nil => rfl
  | cons e t ih =>
    by_cases h : e.1 = k <;> simp [aerase, alookup, h, ih]

theorem alookup_aerase_ne {β : Type} (k k' : String) (l : List (String × β)) (h : k' ≠ k) :
    alookup k' (aerase k l) = alookup k' l := by
  induction l with
  | nil => rfl
  | cons e t ih =>
    by_cases he : e.1 = k
    · have : e.1 ≠ k' := fun hc => h ((hc ▸ he).symm ▸ rfl)
      simp [aerase, alookup, he, this, ih, Ne.symm h]
    · by_cases he' : e.1 = k' <;> simp [aerase, alookup, he, he', ih, h]

theorem alookup_ainsert_self {β : Type} (k : String) (v : β) (l : List (String × β)) :
    alookup k (ainsert k v l) = some v := by
  simp [ainsert, alookup_append, alookup_aerase_self, alookup, Option.orElse]

theorem alookup_ainsert_ne {β : Type} (k k' : String) (v : β) (l : List (String × β))
    (h : k' ≠ k) : alookup k' (ainsert k v l) = alookup k' l := by
  have hk : k ≠ k' := Ne.symm h
  simp [ainsert, alookup_append, alookup_aerase_ne k k' l h, alookup, hk, Option.orElse]
  cases alookup k' l <;> simp

theorem aerase_of_alookup_none {β : Type} (k : String) (l : List (String × β))
    (h : alookup k l = none) : aerase k l = l := by
  induction l with
  | nil => rfl
  | cons e t ih =>
    by_cases he : e.1 = k
    · simp [alookup, he] at h
    · simp [alookup, he] at h
      simp [aerase, he, ih h]

/-! ## Loader: name sanitization and table-name resolution

Embeds `loader/loader.go`.  `filepath.Base`, `filepath.Ext` and
`filepath.Rel` are embedded for clean `/`-separated paths: `Rel` is the
prefix-stripping case (every watched path lies under the root directory;
Go falls back to `filepath.Base` when `Rel` fails, mirrored by the
else branch). -/

def isDigitChar (c : Char) : Bool := '0' ≤ c && c ≤ '9'

/-- The character folding of `sanitizeTableName`: path separators,
hyphens, spaces and dots become underscores. -/
def tableChar (c : Char) : Char :=
  if c = '/' || c = '-' || c = ' ' || c = '.' then '_' else c

/-- `sanitizeTableName` from `loader/loader.go`: fold characters, prefix
`_` when the result starts with a digit, lower-case. -/
def sanitizeTableName (name : String) : String :=
  let cs := name.toList.map tableChar
  let cs := match cs with
    | [] => ([] : List Char)
    | c :: _ => if isDigitChar c then '_' :: cs else cs
  String.mk (cs.map Char.toLower)

/-- The last `/`-separated component of a character list. -/
def lastComponent (cs : List Char) : List Char :=
  (cs.reverse.takeWhile (fun c => c ≠ '/')).reverse

/-- `filepath.Base` for a clean path with no trailing separator. -/
def baseOf (p : String) : String := String.mk (lastComponent p.toList)

/-- Length of the `filepath.Ext` suffix: the final-dot suffix of the last
path element, `0` when the last element has no dot. -/
def extLen (p : String) : Nat :=
  let lastComp := p.toList.reverse.takeWhile (fun c => c ≠ '/')
  let beforeDot := lastComp.takeWhile (fun c => c ≠ '.')
  if beforeDot.length = lastComp.length then 0 else beforeDot.length + 1

/-- `strings.TrimSuffix(p, filepath.Ext(p))`. -/
def trimExt (p : String) : String :=
  String.mk (p.toList.take (p.toList.length - extLen p))

/-- `filepath.Ext`, lower-cased (as used by `DetectDelimiter` and the
watcher's extension filter). -/
def lowerExt (p : String) : String :=
  String.mk ((p.toList.drop (p.toList.length - extLen p)).map Char.toLower)

/-- `GetBaseTableName`: table name from the file name only. -/
def GetBaseTableName (filePath : String) : String :=
  sanitizeTableName (trimExt (baseOf filePath))

/-- `filepath.Rel(rootDir, filePath)` for a path under the root; the Go
code falls back to `filepath.Base` when `Rel` errors. -/
def relPath (rootDir filePath : String) : String :=
  if (rootDir.toList ++ ['/']).isPrefixOf filePath.toList then
    String.mk (filePath.toList.drop (rootDir.toList.length + 1))
  else baseOf filePath

/-- `GetFullTableName`: table name including the path relative to root. -/
def GetFullTableName (filePath rootDir : String) : String :=
  sanitizeTableName (trimExt (relPath rootDir filePath))

/-- `GetTableName` (deprecated in the source, still called by the
watcher): an alias for `GetFullTableName`. -/
def GetTableName (filePath rootDir : String) : String :=
  GetFullTableName filePath rootDir

/-- `ResolveTableNames`: base name when unique among the input paths,
full name for every member of a conflict group.  The Go function returns
a `map[path]name`; this is that map as a function, meaningful for
`path ∈ filePaths`. -/
def ResolveTableNames (filePaths : List String) (rootDir : String) (path : String) : String :=
  if 1 < (filePaths.filter (fun q => GetBaseTableName q = GetBaseTableName path)).length then
    GetFullTableName path rootDir
  else
    GetBaseTableName path

/-- `DetectDelimiter`: tab for `.tsv`, comma otherwise. -/
def DetectDelimiter (filePath : String) : Char :=
  if lowerExt filePath = ".tsv" then '\t' else ','

/-- The character folding of `SanitizeColumnName` (spaces, hyphens, dots
to underscores; parentheses are removed by the subsequent filter). -/
def columnChar (c : Char) : Char :=
  if c = ' ' || c = '-' || c = '.' then '_' else c

/-- `SanitizeColumnName` from `loader/loader.go`. -/
def SanitizeColumnName (name : String) : String :=
  let cs := (name.toList.map columnChar).filter (fun c => !(c = '(' || c = ')'))
  let cs := match cs with
    | [] => ([] : List Char)
    | c :: _ => if isDigitChar c then '_' :: cs else cs
  let cs := if cs = [] then "column".toList else cs
  String.mk (cs.map Char.toLower)

/-! ## Store: the db.Manager

Embeds `db/db.go`.  The SQLite database is the pair of the data tables
and the `_csvql_metadata` table; the `Manager` adds the in-memory
`map[string]int64` stamp cache.  `Exec`-level engine failures are injected
through explicit failure parameters; each operation returns the resulting
manager together with an optional error, so that a failed call's
observable post-state is part of the model (`LoadFile` runs inside one
transaction, `RemoveTable`, `RemoveTableByPath` and `RenameTable` issue
separate auto-committed statements, exactly as the Go code does). -/

structure FileInfo where
  path : String
  tableName : String
  delimiter : Char
  headers : List String
  modTime : Int
  deriving DecidableEq, Repr

structure ParsedFile where
  info : FileInfo
  records : List (List String)
  deriving DecidableEq, Repr

structure TableData where
  cols : List String
  rows : List (List String)
  deriving DecidableEq, Repr

/-- A metadata row `(table_name, file_path, mod_time)`; `table_name` is
the primary key. -/
structure DBState where
  tables : List (String × TableData)
  metaTable : List (String × String × Int)
  deriving DecidableEq, Repr

structure Manager where
  db : DBState
  metadata : List (String × Int)
  deriving DecidableEq, Repr

/-- The `(table_name → mod_time)` projection of the metadata table, as
read by `loadMetadata`. -/
def metaProj (l : List (String × String × Int)) : List (String × Int) :=
  l.map (fun r => (r.1, r.2.2))

/-- `db.New`: open the backing file and load the metadata index into the
in-memory map before serving any call. -/
def NewManager (db : DBState) : Manager :=
  { db := db, metadata := metaProj db.metaTable }

/-- `Manager.NeedsUpdate`: true when no stamp is cached for the table or
the cached stamp differs from the supplied one. -/
def NeedsUpdate (m : Manager) (tableName : String) (modTime : Int) : Bool :=
  match alookup tableName m.metadata with
  | none => true
  | some existing => if existing = modTime then false else true

/-- The duplicate-column renaming loop of `LoadFile`: scan the previously
assigned names, appending `_counter` on each clash with the running name. -/
def dedupColumn (prior : List String) (colName : String) : String :=
  (prior.foldl
    (fun st prev =>
      if prev = st.1 then (colName ++ "_" ++ toString st.2, st.2 + 1) else st)
    (colName, (1 : Nat))).1

def buildColumnNamesAux (prior : List String) : List String → List String
  | [] => []
  | h :: t =>
    let c := dedupColumn prior (SanitizeColumnName h)
    c :: buildColumnNamesAux (prior ++ [c]) t

/-- The column names `LoadFile` builds from the header fields. -/
def buildColumnNames (headers : List String) : List String :=
  buildColumnNamesAux [] headers

def hasDup : List String → Bool
  | [] => false
  | x :: t => t.contains x || hasDup t

/-- Pad or trim a record to the column count: `values[i] = record[i]` when
`i < len(record)`, else `""`. -/
def padRow (n : Nat) (record : List String) : List String :=
  (List.range n).map (fun i => record.getD i "")

/-- Injectable failure points of `LoadFile`, one per checked `Exec` in the
Go code (`Begin`, `DROP`, `CREATE`, prepare/insert, the metadata upsert,
`Commit`). -/
inductive LoadFail
  | atBegin | atDrop | atCreate | atInsert | atMeta | atCommit
  deriving DecidableEq, Repr

/-- `Manager.LoadFile`.  All statements run in one transaction whose
rollback is deferred: a failure at any step discards the
transaction-local state and leaves the manager unchanged; on `Commit` the
transaction state is published and only then is the in-memory stamp cache
updated.  `CREATE TABLE` also fails on a duplicate column name (the one
statement-level error the data can force). -/
def LoadFile (m : Manager) (parsed : ParsedFile) (fail : Option LoadFail) :
    Manager × Option String :=
  let tableName := parsed.info.tableName
  if fail = some .atBegin then (m, some "failed to begin transaction") else
  -- DROP TABLE IF EXISTS tableName (transaction-local)
  let txTables₁ := aerase tableName m.db.tables
  if fail = some .atDrop then (m, some "failed to drop table") else
  let columnNames := buildColumnNames parsed.info.headers
  if hasDup columnNames then (m, some "failed to create table: duplicate column name") else
  if fail = some .atCreate then (m, some "failed to create table") else
  -- CREATE TABLE tableName (columns TEXT ...) (transaction-local)
  let txTables₂ := txTables₁ ++ [(tableName, TableData.mk columnNames [])]
  if fail = some .atInsert then (m, some "failed to insert record") else
  -- INSERT each record, padded/trimmed to the column count
  let txTables₃ := ainsert tableName
    (TableData.mk columnNames (parsed.records.map (padRow columnNames.length))) txTables₂
  if fail = some .atMeta then (m, some "failed to update metadata") else
  -- INSERT OR REPLACE INTO _csvql_metadata
  let txMeta := ainsert tableName (parsed.info.path, parsed.info.modTime) m.db.metaTable
  if fail = some .atCommit then (m, some "failed to commit transaction") else
  ({ db := { tables := txTables₃, metaTable := txMeta },
     metadata := ainsert tableName parsed.info.modTime m.metadata }, none)

/-- Injectable failure points of `RemoveTable`: its two separate,
auto-committed statements. -/
inductive RemoveFail
  | atDrop | atDelete
  deriving DecidableEq, Repr

/-- `Manager.RemoveTable`: `DROP TABLE IF EXISTS` and the metadata
`DELETE` are separate statements, each committed on its own; the map entry
is deleted last. -/
def RemoveTable (m : Manager) (tableName : String) (fail : Option RemoveFail) :
    Manager × Option String :=
  if fail = some .atDrop then (m, some "drop failed") else
  let m₁ : Manager := { m with db := { m.db with tables := aerase tableName m.db.tables } }
  if fail = some .atDelete then (m₁, some "metadata delete failed") else
  let m₂ : Manager := { m₁ with db := { m₁.db with metaTable := aerase tableName m₁.db.metaTable } }
  ({ m₂ with metadata := aerase tableName m₂.metadata }, none)

/-- `QueryRow("SELECT table_name FROM _csvql_metadata WHERE file_path = ?")`:
the first row carrying the path. -/
def firstNameWithPath : List (String × String × Int) → String → Option String
  | [], _ => none
  | r :: t, p => if r.2.1 = p then some r.1 else firstNameWithPath t p

inductive RemoveByPathFail
  | atDrop | atDelete
  deriving DecidableEq, Repr

/-- `DELETE FROM _csvql_metadata WHERE file_path = ?`: remove every row
carrying the path. -/
def eraseByPath (fp : String) : List (String × String × Int) → List (String × String × Int)
  | [] => []
  | r :: t => if r.2.1 = fp then eraseByPath fp t else r :: eraseByPath fp t

/-- `Manager.RemoveTableByPath`: look up one table name for the path,
drop that table, then delete **every** metadata row carrying the path,
and finally drop the looked-up name from the map. -/
def RemoveTableByPath (m : Manager) (filePath : String) (fail : Option RemoveByPathFail) :
    Manager × Option String :=
  match firstNameWithPath m.db.metaTable filePath with
  | none => (m, some "no table found for path")
  | some tableName =>
    if fail = some .atDrop then (m, some "drop failed") else
    let m₁ : Manager := { m with db := { m.db with tables := aerase tableName m.db.tables } }
    if fail = some .atDelete then (m₁, some "metadata delete failed") else
    let m₂ : Manager := { m₁ with db :=
      { m₁.db with metaTable := eraseByPath filePath m₁.db.metaTable } }
    ({ m₂ with metadata := aerase tableName m₂.metadata }, none)

/-- Rename every row keyed `o` to `n` (the SQL `UPDATE ... WHERE` /
`ALTER TABLE ... RENAME`). -/
def renameKey {β : Type} (o n : String) : List (String × β) → List (String × β)
  | [] => []
  | e :: t => (if e.1 = o then (n, e.2) else e) :: renameKey o n t

inductive RenameFail
  | atAlter | atUpdate
  deriving DecidableEq, Repr

/-- `Manager.RenameTable`: no-op when the names coincide; `ALTER TABLE`
fails when the old table is missing or the new name is taken; the
metadata `UPDATE` fails on a primary-key clash; each statement commits on
its own, and the map is moved only if the old key is cached. -/
def RenameTable (m : Manager) (oldName newName : String) (fail : Option RenameFail) :
    Manager × Option String :=
  if oldName = newName then (m, none) else
  if fail = some .atAlter then (m, some "alter failed") else
  if (alookup oldName m.db.tables).isNone then (m, some "alter failed: no such table") else
  if (alookup newName m.db.tables).isSome then (m, some "alter failed: table exists") else
  let m₁ : Manager := { m with db := { m.db with tables := renameKey oldName newName m.db.tables } }
  if fail = some .atUpdate then (m₁, some "metadata update failed") else
  if (alookup oldName m₁.db.metaTable).isSome && (alookup newName m₁.db.metaTable).isSome then
    (m₁, some "metadata update failed: primary key clash") else
  let m₂ : Manager := { m₁ with db :=
    { m₁.db with metaTable := renameKey oldName newName m₁.db.metaTable } }
  (match alookup oldName m₂.metadata with
   | some mt => { m₂ with metadata := ainsert newName mt (aerase oldName m₂.metadata) }
   | none => m₂, none)

/-- `Manager.Query` restricted to the one statement shape the claims
exercise, `SELECT * FROM t`: `none` is the engine's "no such table"
error. -/
def QueryTable (m : Manager) (tableName : String) :
    Option (List String × List (List String)) :=
  (alookup tableName m.db.tables).map (fun td => (td.cols, td.rows))

/-- Insert into a sorted list of strings (ascending). -/
def insertSorted (a : String) : List String → List String
  | [] => [a]
  | b :: t => if decide (b < a) then b :: insertSorted a t else a :: b :: t

/-- Ascending insertion sort on strings (the `ORDER BY` of `ListTables`). -/
def sortStrings : List String → List String
  | [] => []
  | a :: t => insertSorted a (sortStrings t)

/-- `Manager.ListTables`: the metadata table's names, `ORDER BY
table_name`. -/
def ListTables (m : Manager) : List String :=
  sortStrings (m.db.metaTable.map (fun r => r.1))

/-- `Manager.GetTableInfo` (`PRAGMA table_info`): the column names, empty
for an absent table (the pragma returns zero rows, not an error). -/
def GetTableInfo (m : Manager) (tableName : String) : List String :=
  match alookup tableName m.db.tables with
  | none => []
  | some td => td.cols

/-! ## Watcher

Embeds `watcher/watcher.go`.  The file system seen by a reconciliation is
a map from path to its observable state (missing, present but
unreadable/undecodable, or the decoded record rows plus the stat
modification stamp); `loader.ParseFile` and `Watcher.processFile` are
functions of that map.  The debounce loop `watch` is a transition system
over the pending map, driven by a trace of raw notifications and ticker
sweeps; promoting a path removes it from the pending map and dispatches
one `processFile` for it. -/

/-- What `os.Stat` + the CSV reader observe for a path. -/
inductive FileState
  | missing
  | unreadable
  | content (rows : List (List String)) (modTime : Int)
  deriving DecidableEq, Repr

/-- `loader.ParseFile` as called by the watcher (no explicit table name,
so the name falls back to `GetFullTableName`): fails on a missing or
undecodable file and on an empty record set; otherwise the first row is
the header and the rest are the records. -/
def ParseFile (fs : String → FileState) (filePath rootDir : String) : Option ParsedFile :=
  match fs filePath with
  | .missing => none
  | .unreadable => none
  | .content rows modTime =>
    match rows with
    | [] => none
    | header :: records =>
      some { info := { path := filePath,
                       tableName := GetFullTableName filePath rootDir,
                       delimiter := DetectDelimiter filePath,
                       headers := header,
                       modTime := modTime },
             records := records }

/-- `Watcher.processFile`: for a missing path, remove the table named by
`GetTableName` and report `DELETE`; otherwise parse and load, reporting
`UPDATE`; a parse or store error leaves the manager unchanged and reports
nothing.  The returned list is the sequence of `onChange` invocations. -/
def processFile (fs : String → FileState) (rootDir : String) (m : Manager) (path : String) :
    Manager × List (String × String) :=
  match fs path with
  | .missing =>
    let tableName := GetTableName path rootDir
    match RemoveTable m tableName none with
    | (m', none) => (m', [("DELETE", path)])
    | (m', some _) => (m', [])
  | _ =>
    match ParseFile fs path rootDir with
    | none => (m, [])
    | some parsed =>
      match LoadFile m parsed none with
      | (m', none) => (m', [("UPDATE", path)])
      | (m', some _) => (m', [])

/-- The watcher's extension filter on raw events. -/
def isDataFile (p : String) : Bool := lowerExt p = ".csv" || lowerExt p = ".tsv"

/-- One input to the `watch` select loop: a raw filesystem notification
for a path, or a ticker sweep; times are in milliseconds. -/
inductive WEvent
  | raw (path : String) (t : Nat)
  | sweep (t : Nat)
  deriving DecidableEq, Repr

def timeOf : WEvent → Nat
  | .raw _ t => t
  | .sweep t => t

def isRawOf (p : String) : WEvent → Bool
  | .raw q _ => q = p
  | .sweep _ => false

/-- The debounce quiet window: a sweep promotes entries whose last event
is more than 300 ms old. -/
def quietWindow : Nat := 300

/-- One step of the `watch` loop over the pending map.  A raw event for a
recognized extension records/refreshes the path's last-event time; a
sweep removes and promotes every entry older than the quiet window.  The
second component lists the paths promoted (each promotion dispatches
`go w.processFile(path)`). -/
def stepWatch (pending : List (String × Nat)) : WEvent → List (String × Nat) × List String
  | .raw p t => (if isDataFile p then ainsert p t pending else pending, [])
  | .sweep now =>
    (pending.filter (fun e => !(decide (quietWindow < now - e.2))),
     (pending.filter (fun e => decide (quietWindow < now - e.2))).map (fun e => e.1))

/-- Run the `watch` loop over a trace, accumulating promotions. -/
def runWatch (pending : List (String × Nat)) : List WEvent → List (String × Nat) × List String
  | [] => (pending, [])
  | e :: rest =>
    let s := stepWatch pending e
    let r := runWatch s.1 rest
    (r.1, s.2 ++ r.2)

/-- The pending entries for one path (the Go pending map holds at most
one, keyed by path). -/
def pendingOf (p : String) : List (String × Nat) → List (String × Nat)
  | [] => []
  | e :: t => if e.1 = p then e :: pendingOf p t else pendingOf p t

/-- Bool form of "every raw event for `p` in the trace is at time
`t0` or later". -/
def rawFloor (p : String) (t0 : Nat) : WEvent → Bool
  | .raw q t => if q = p then decide (t0 ≤ t) else true
  | .sweep _ => true

/-- Bool form of "a sweep later than the given time occurs". -/
def lateSweep (bound : Nat) : WEvent → Bool
  | .sweep t => decide (bound < t)
  | .raw _ _ => false

/-! ## Basic lemmas about the store operations -/

theorem aerase_append {β : Type} (k : String) (l₁ l₂ : List (String × β)) :
    aerase k (l₁ ++ l₂) = aerase k l₁ ++ aerase k l₂ := by
  induction l₁ with
  | nil => rfl
  | cons e t ih => by_cases h : e.1 = k <;> simp [aerase, h, ih]

theorem aerase_aerase {β : Type} (k : String) (l : List (String × β)) :
    aerase k (aerase k l) = aerase k l :=
  aerase_of_alookup_none k _ (alookup_aerase_self k l)

theorem ainsert_over_fresh {β : Type} (k : String) (v w : β) (l : List (String × β)) :
    ainsert k v (aerase k l ++ [(k, w)]) = ainsert k v l := by
  simp [ainsert, aerase_append, aerase_aerase, aerase]

theorem buildColumnNamesAux_length (prior hs : List String) :
    (buildColumnNamesAux prior hs).length = hs.length := by
  induction hs generalizing prior with
  | nil => rfl
  | cons h t ih => simp [buildColumnNamesAux, ih]

theorem buildColumnNames_length (headers : List String) :
    (buildColumnNames headers).length = headers.length :=
  buildColumnNamesAux_length [] headers

/-- `padRow` is exactly "truncate to the first `n` fields, then pad with
empty strings up to `n`". -/
theorem padRow_eq (n : Nat) (r : List String) :
    padRow n r = r.take n ++ List.replicate (n - r.length) "" := by
  induction r generalizing n with
  | nil => simp [padRow, List.map_const']
  | cons a t ih =>
    cases n with
    | zero => simp [padRow]
    | succ m =>
      have hm := ih m
      simp only [padRow, List.range_succ_eq_map, List.map_cons, List.map_map] at hm ⊢
      simp only [List.getD, List.getElem?_cons_zero, Option.getD_some, List.take_succ_cons,
        List.cons_append, List.length_cons, Nat.succ_sub_succ]
      refine congrArg (a :: ·) ?_
      calc List.map ((fun i => (a :: t).getD i "") ∘ Nat.succ) (List.range m)
          = List.map (fun i => t.getD i "") (List.range m) := by
            refine List.map_congr_left ?_
            intro i _
            simp [List.getD]
        _ = List.take m t ++ List.replicate (m - t.length) "" := hm

/-- A `LoadFile` call with an injected statement failure reports the
error and leaves the manager untouched. -/
theorem LoadFile_fail_eq (m : Manager) (p : ParsedFile) (x : LoadFail) :
    (LoadFile m p (some x)).1 = m ∧ (LoadFile m p (some x)).2 ≠ none := by
  cases x <;> simp [LoadFile] <;>
    by_cases hd : hasDup (buildColumnNames p.info.headers) = true <;> simp [hd]

/-- A `LoadFile` call with no injected failure and no duplicate column
name commits the transaction: table data, metadata row and stamp cache
in one step. -/
theorem LoadFile_none_eq (m : Manager) (p : ParsedFile)
    (hnd : hasDup (buildColumnNames p.info.headers) = false) :
    LoadFile m p none =
      ({ db := { tables := ainsert p.info.tableName
                   ⟨buildColumnNames p.info.headers,
                    p.records.map (padRow (buildColumnNames p.info.headers).length)⟩
                   m.db.tables,
                 metaTable := ainsert p.info.tableName (p.info.path, p.info.modTime)
                   m.db.metaTable },
         metadata := ainsert p.info.tableName p.info.modTime m.metadata }, none) := by
  simp [LoadFile, hnd, ainsert_over_fresh]

theorem LoadFile_dup_eq (m : Manager) (p : ParsedFile)
    (hd : hasDup (buildColumnNames p.info.headers) = true) :
    LoadFile m p none = (m, some "failed to create table: duplicate column name") := by
  simp [LoadFile, hd]

/-! ## Claim theorems: the Store -/

/-- C3: `LoadFile` is atomic.  Whenever the call reports an error —
whatever statement failed — the manager is exactly the input manager: the
previous table data, metadata row and cached stamp are unchanged.  On
success, the drop/create/insert result, the metadata upsert and the stamp
cache all change together: the table holds the padded/trimmed rows under
the sanitized columns, the metadata row is `(path, modStamp)`, the cache
answers that stamp, and no other table's data, metadata row or cached
stamp moves. -/
theorem load_atomicity (m : Manager) (p : ParsedFile) (fail : Option LoadFail) :
    ((LoadFile m p fail).2 ≠ none → (LoadFile m p fail).1 = m) ∧
    ((LoadFile m p fail).2 = none →
      alookup p.info.tableName (LoadFile m p fail).1.db.tables =
        some ⟨buildColumnNames p.info.headers,
              p.records.map (padRow (buildColumnNames p.info.headers).length)⟩ ∧
      alookup p.info.tableName (LoadFile m p fail).1.db.metaTable =
        some (p.info.path, p.info.modTime) ∧
      alookup p.info.tableName (LoadFile m p fail).1.metadata = some p.info.modTime ∧
      (∀ t, t ≠ p.info.tableName →
        alookup t (LoadFile m p fail).1.db.tables = alookup t m.db.tables ∧
        alookup t (LoadFile m p fail).1.db.metaTable = alookup t m.db.metaTable ∧
        alookup t (LoadFile m p fail).1.metadata = alookup t m.metadata)) := by
  cases fail with
  | some x =>
    refine ⟨fun _ => (LoadFile_fail_eq m p x).1, fun h => absurd h (LoadFile_fail_eq m p x).2⟩
  | none =>
    by_cases hd : hasDup (buildColumnNames p.info.headers) = true
    · rw [LoadFile_dup_eq m p hd]
      exact ⟨fun _ => rfl, fun h => by simp at h⟩
    · rw [LoadFile_none_eq m p (by simpa using hd)]
      refine ⟨fun h => absurd rfl h, fun _ => ?_⟩
      refine ⟨alookup_ainsert_self _ _ _, alookup_ainsert_self _ _ _,
        alookup_ainsert_self _ _ _, fun t ht => ?_⟩
      exact ⟨alookup_ainsert_ne _ _ _ _ ht, alookup_ainsert_ne _ _ _ _ ht,
        alookup_ainsert_ne _ _ _ _ ht⟩

def loadDemoMgr : Manager := ⟨⟨[], []⟩, []⟩

def loadDemoParsed : ParsedFile := ⟨⟨"/r/t.csv", "t", ',', ["c"], 4⟩, [["v"]]⟩

/-- Witness for C3 at a concrete manager and file: an injected drop
failure leaves the manager unchanged, and a clean call commits the
stamp. -/
theorem load_atomicity_witness :
    (LoadFile loadDemoMgr loadDemoParsed (some LoadFail.atDrop)).1 = loadDemoMgr ∧
    alookup "t" (LoadFile loadDemoMgr loadDemoParsed none).1.metadata = some 4 :=
  ⟨(load_atomicity loadDemoMgr loadDemoParsed (some .atDrop)).1 (by decide),
   ((load_atomicity loadDemoMgr loadDemoParsed none).2 (by decide)).2.2.1⟩

/-- C4: `NeedsUpdate` is true exactly when no metadata entry is cached
for the table or the cached stamp differs from the supplied one — any
difference, not only greater-than.  After a successful load with stamp
`s`, `NeedsUpdate` at `s` is false and `NeedsUpdate` at any `s' ≠ s`,
including smaller stamps, is true. -/
theorem needsUpdate_spec (m : Manager) (t : String) (s : Int) :
    (NeedsUpdate m t s = true ↔
      alookup t m.metadata = none ∨ ∃ v, alookup t m.metadata = some v ∧ v ≠ s) ∧
    (∀ (p : ParsedFile) (m' : Manager), p.info.tableName = t → p.info.modTime = s →
      LoadFile m p none = (m', none) →
      NeedsUpdate m' t s = false ∧ ∀ s', s' ≠ s → NeedsUpdate m' t s' = true) := by
  constructor
  · unfold NeedsUpdate
    cases h : alookup t m.metadata with
    | none => simp
    | some v => by_cases hv : v = s <;> simp [h, hv]
  · intro p m' hname hstamp hload
    by_cases hd : hasDup (buildColumnNames p.info.headers) = true
    · rw [LoadFile_dup_eq m p hd] at hload
      simp at hload
    · rw [LoadFile_none_eq m p (by simpa using hd)] at hload
      have hmd : m'.metadata = ainsert p.info.tableName p.info.modTime m.metadata := by
        have h1 := congrArg Prod.fst hload
        simp only [] at h1
        rw [← h1]
      rw [hname, hstamp] at hmd
      constructor
      · simp only [NeedsUpdate, hmd, alookup_ainsert_self]
        simp
      · intro s' hs'
        simp only [NeedsUpdate, hmd, alookup_ainsert_self]
        simp [Ne.symm hs']

/-- Witness for C4: after loading stamp `4`, the check is false at `4`
and true at the smaller stamp `3`. -/
theorem needsUpdate_spec_witness :
    NeedsUpdate (LoadFile loadDemoMgr loadDemoParsed none).1 "t" 4 = false ∧
    NeedsUpdate (LoadFile loadDemoMgr loadDemoParsed none).1 "t" 3 = true := by
  have h := (needsUpdate_spec loadDemoMgr "t" 4).2 loadDemoParsed
    (LoadFile loadDemoMgr loadDemoParsed none).1 rfl rfl (by decide)
  exact ⟨h.1, h.2 3 (by decide)⟩

/-- C6: round-trip.  A successful load of a record with `N` header fields
and `M` rows, read back through `GetTableInfo` and the query path, yields
exactly `N` columns and `M` rows, where each stored row is the ingested
row truncated to its first `N` fields and padded with empty strings up to
`N`. -/
theorem load_roundtrip (m : Manager) (p : ParsedFile) (m' : Manager)
    (h : LoadFile m p none = (m', none)) :
    (GetTableInfo m' p.info.tableName).length = p.info.headers.length ∧
    QueryTable m' p.info.tableName =
      some (GetTableInfo m' p.info.tableName,
        p.records.map (fun r =>
          r.take p.info.headers.length ++
          List.replicate (p.info.headers.length - r.length) "")) ∧
    ((QueryTable m' p.info.tableName).map (fun q => q.2.length)) =
      some p.records.length := by
  by_cases hd : hasDup (buildColumnNames p.info.headers) = true
  · rw [LoadFile_dup_eq m p hd] at h
    simp at h
  · rw [LoadFile_none_eq m p (by simpa using hd)] at h
    have h1 := congrArg Prod.fst h
    simp only [] at h1
    have htab : alookup p.info.tableName m'.db.tables =
        some ⟨buildColumnNames p.info.headers,
          p.records.map (padRow (buildColumnNames p.info.headers).length)⟩ := by
      rw [← h1]
      exact alookup_ainsert_self _ _ _
    have hrows : p.records.map (padRow (buildColumnNames p.info.headers).length) =
        p.records.map (fun r =>
          r.take p.info.headers.length ++
          List.replicate (p.info.headers.length - r.length) "") := by
      refine List.map_congr_left fun r _ => ?_
      rw [padRow_eq, buildColumnNames_length]
    refine ⟨?_, ?_, ?_⟩
    · simp [GetTableInfo, htab, buildColumnNames_length]
    · simp [QueryTable, GetTableInfo, htab, hrows]
    · simp [QueryTable, htab]

/-- Witness for C6: the demo load stores one row under one column. -/
theorem load_roundtrip_witness :
    (GetTableInfo (LoadFile loadDemoMgr loadDemoParsed none).1
        loadDemoParsed.info.tableName).length = loadDemoParsed.info.headers.length ∧
    ((QueryTable (LoadFile loadDemoMgr loadDemoParsed none).1
        loadDemoParsed.info.tableName).map (fun q => q.2.length)) =
      some loadDemoParsed.records.length := by
  have h := load_roundtrip loadDemoMgr loadDemoParsed
    (LoadFile loadDemoMgr loadDemoParsed none).1 (by decide)
  exact ⟨h.1, h.2.2⟩

/-- The metadata projection of an upsert is the upsert of the
projection. -/
theorem metaProj_ainsert (k : String) (pa : String) (mt : Int)
    (l : List (String × String × Int)) :
    metaProj (ainsert k (pa, mt) l) = ainsert k mt (metaProj l) := by
  induction l with
  | nil => rfl
  | cons r t ih =>
    by_cases h : r.1 = k <;>
      simp [metaProj, ainsert, aerase, h] at ih ⊢ <;>
      simpa [metaProj] using ih

theorem metaProj_aerase (k : String) (l : List (String × String × Int)) :
    metaProj (aerase k l) = aerase k (metaProj l) := by
  induction l with
  | nil => rfl
  | cons r t ih => by_cases h : r.1 = k <;> simp [metaProj, aerase, h] at ih ⊢ <;> exact ih

/-- C9: persistence.  A manager constructed over the database state left
by a successful load — `New` reloads the metadata index before serving
any call — answers `NeedsUpdate` with the original stamp as false, with
no parse involved: `NewManager` and `NeedsUpdate` are functions of the
stored state alone. -/
theorem restart_no_reparse (m m' : Manager) (p : ParsedFile)
    (h : LoadFile m p none = (m', none)) :
    NeedsUpdate (NewManager m'.db) p.info.tableName p.info.modTime = false ∧
    ∀ s', s' ≠ p.info.modTime →
      NeedsUpdate (NewManager m'.db) p.info.tableName s' = true := by
  by_cases hd : hasDup (buildColumnNames p.info.headers) = true
  · rw [LoadFile_dup_eq m p hd] at h
    simp at h
  · rw [LoadFile_none_eq m p (by simpa using hd)] at h
    have h1 := congrArg Prod.fst h
    simp only [] at h1
    have hmeta : m'.db.metaTable =
        ainsert p.info.tableName (p.info.path, p.info.modTime) m.db.metaTable := by
      rw [← h1]
    have hl : alookup p.info.tableName (metaProj m'.db.metaTable) = some p.info.modTime := by
      rw [hmeta, metaProj_ainsert]
      exact alookup_ainsert_self _ _ _
    constructor
    · simp [NeedsUpdate, NewManager, hl]
    · intro s' hs'
      simp [NeedsUpdate, NewManager, hl, Ne.symm hs']

/-- Witness for C9: reopening over the demo load's database answers
false for the original stamp `4` without reparsing. -/
theorem restart_no_reparse_witness :
    NeedsUpdate (NewManager (LoadFile loadDemoMgr loadDemoParsed none).1.db) "t" 4 = false ∧
    NeedsUpdate (NewManager (LoadFile loadDemoMgr loadDemoParsed none).1.db) "t" 9 = true := by
  have h := restart_no_reparse loadDemoMgr (LoadFile loadDemoMgr loadDemoParsed none).1
    loadDemoParsed (by decide)
  exact ⟨h.1, h.2 9 (by decide)⟩

def removeDemoMgr : Manager :=
  ⟨⟨[("t", ⟨["c"], [["v"]]⟩)], [("t", ("/r/t.csv", 3))]⟩, [("t", 3)]⟩

/-- C7 counterexample: `RemoveTable`'s two statements are not one atomic
unit.  When the metadata `DELETE` fails after the `DROP` has committed,
the call errors out leaving the table gone while its metadata row (and
cached stamp) survive — exactly the intermediate state the claim says is
never left behind on failure. -/
theorem remove_not_atomic_counterexample :
    (RemoveTable removeDemoMgr "t" (some RemoveFail.atDelete)).2.isSome = true ∧
    alookup "t" (RemoveTable removeDemoMgr "t" (some RemoveFail.atDelete)).1.db.tables = none ∧
    alookup "t" (RemoveTable removeDemoMgr "t" (some RemoveFail.atDelete)).1.db.metaTable =
      some ("/r/t.csv", 3) ∧
    alookup "t" (RemoveTable removeDemoMgr "t" (some RemoveFail.atDelete)).1.metadata =
      some 3 := by
  decide

/-- C7 amended: `remove` is idempotent — removing an absent table
succeeds and leaves the store unchanged — and a call in which both
statements execute deletes the table data, its metadata row and its
cached stamp together, touching no other table; but the drop and the
metadata delete are separate auto-committed statements, so only a
completed call (not a failed one) relates the two deletions. -/
theorem remove_idempotent (m : Manager) (t : String) :
    (alookup t m.db.tables = none → alookup t m.db.metaTable = none →
      alookup t m.metadata = none → RemoveTable m t none = (m, none)) ∧
    ((RemoveTable m t none).2 = none ∧
      alookup t (RemoveTable m t none).1.db.tables = none ∧
      alookup t (RemoveTable m t none).1.db.metaTable = none ∧
      alookup t (RemoveTable m t none).1.metadata = none ∧
      (∀ t', t' ≠ t →
        alookup t' (RemoveTable m t none).1.db.tables = alookup t' m.db.tables ∧
        alookup t' (RemoveTable m t none).1.db.metaTable = alookup t' m.db.metaTable ∧
        alookup t' (RemoveTable m t none).1.metadata = alookup t' m.metadata)) := by
  constructor
  · intro h1 h2 h3
    simp [RemoveTable, aerase_of_alookup_none t _ h1, aerase_of_alookup_none t _ h2,
      aerase_of_alookup_none t _ h3]
  · refine ⟨rfl, ?_, ?_, ?_, fun t' ht' => ?_⟩
    · exact alookup_aerase_self t _
    · exact alookup_aerase_self t _
    · exact alookup_aerase_self t _
    · exact ⟨alookup_aerase_ne t t' _ ht', alookup_aerase_ne t t' _ ht',
        alookup_aerase_ne t t' _ ht'⟩

/-- Witness for C7's amended statement: removing the absent table `"u"`
from the demo store succeeds and changes nothing; removing `"t"`
deletes its data and metadata together. -/
theorem remove_idempotent_witness :
    RemoveTable removeDemoMgr "u" none = (removeDemoMgr, none) ∧
    alookup "t" (RemoveTable removeDemoMgr "t" none).1.db.metaTable = none :=
  ⟨(remove_idempotent removeDemoMgr "u").1 (by decide) (by decide) (by decide),
   (remove_idempotent removeDemoMgr "t").2.2.2.1⟩

/-! ## Claim theorems: the Name Resolver -/

/-- C5: `ResolveTableNames` is a pure, deterministic function of the
input path set.  For `{a/x.csv, b/x.csv, y.csv}` under the root the two
conflicting paths resolve to `a_x` and `b_x` and the unrelated one to
`y`; the result is invariant under reordering of the path list; every
member of a conflict group — including a root-level file — is assigned
its full name; and re-resolving after one colliding path is removed
gives the survivor its base name. -/
theorem resolver_spec :
    (ResolveTableNames ["/r/a/x.csv", "/r/b/x.csv", "/r/y.csv"] "/r" "/r/a/x.csv" = "a_x" ∧
     ResolveTableNames ["/r/a/x.csv", "/r/b/x.csv", "/r/y.csv"] "/r" "/r/b/x.csv" = "b_x" ∧
     ResolveTableNames ["/r/a/x.csv", "/r/b/x.csv", "/r/y.csv"] "/r" "/r/y.csv" = "y") ∧
    (∀ (l l' : List String) (root p : String), l.Perm l' →
      ResolveTableNames l root p = ResolveTableNames l' root p) ∧
    (∀ (l : List String) (root p : String),
      1 < (l.filter (fun q => GetBaseTableName q = GetBaseTableName p)).length →
      ResolveTableNames l root p = GetFullTableName p root) ∧
    (ResolveTableNames ["/r/x.csv", "/r/a/x.csv"] "/r" "/r/x.csv" =
       GetFullTableName "/r/x.csv" "/r" ∧
     ResolveTableNames ["/r/x.csv", "/r/a/x.csv"] "/r" "/r/a/x.csv" =
       GetFullTableName "/r/a/x.csv" "/r") ∧
    (ResolveTableNames ["/r/b/x.csv", "/r/y.csv"] "/r" "/r/b/x.csv" = "x" ∧
     ResolveTableNames ["/r/b/x.csv", "/r/y.csv"] "/r" "/r/b/x.csv" =
       GetBaseTableName "/r/b/x.csv") := by
  refine ⟨⟨by decide, by decide, by decide⟩, ?_, ?_, ⟨by decide, by decide⟩,
    ⟨by decide, by decide⟩⟩
  · intro l l' root p hperm
    unfold ResolveTableNames
    rw [(hperm.filter (fun q => GetBaseTableName q = GetBaseTableName p)).length_eq]
  · intro l root p hconf
    simp [ResolveTableNames, hconf]

/-- Witness for C5's quantified parts: reordering the three-path set
leaves the resolution of `a/x.csv` unchanged, and the conflict rule
names it `a_x`. -/
theorem resolver_spec_witness :
    ResolveTableNames ["/r/a/x.csv", "/r/b/x.csv", "/r/y.csv"] "/r" "/r/a/x.csv" =
      ResolveTableNames ["/r/y.csv", "/r/b/x.csv", "/r/a/x.csv"] "/r" "/r/a/x.csv" ∧
    ResolveTableNames ["/r/a/x.csv", "/r/b/x.csv", "/r/y.csv"] "/r" "/r/a/x.csv" =
      GetFullTableName "/r/a/x.csv" "/r" :=
  ⟨(resolver_spec.2.1) _ _ "/r" "/r/a/x.csv" (by decide),
   (resolver_spec.2.2.1) _ "/r" "/r/a/x.csv" (by decide)⟩

/-! ## Claim theorems: the Watcher -/

def watchUpdateFS : String → FileState := fun q =>
  if q = "/r/subdir/nested.csv" then FileState.content [["col"], ["val"]] 5 else FileState.missing

def watchUpdateMgr : Manager :=
  ⟨⟨[("subdir_nested", ⟨["col"], [["old"]]⟩)],
    [("subdir_nested", ("/r/subdir/nested.csv", 5))]⟩,
   [("subdir_nested", 5)]⟩

/-- C1: the claimed reconciliation pipeline (parse → conflict-aware
resolver → `needsUpdate` gate → load) is not what `processFile` runs.
For the single watched file `subdir/nested.csv` the resolver assigns the
base name `nested` (the repository's own watcher test expects this), yet
the reconciliation loads under the full name `subdir_nested`, and it
loads and fires `UPDATE` even though `NeedsUpdate` with the file's
current stamp is false — no staleness check is consulted. -/
theorem watcher_reconcile_divergence :
    NeedsUpdate watchUpdateMgr "subdir_nested" 5 = false ∧
    (processFile watchUpdateFS "/r" watchUpdateMgr "/r/subdir/nested.csv").2 =
      [("UPDATE", "/r/subdir/nested.csv")] ∧
    alookup "subdir_nested"
      (processFile watchUpdateFS "/r" watchUpdateMgr "/r/subdir/nested.csv").1.db.tables =
      some ⟨["col"], [["val"]]⟩ ∧
    ResolveTableNames ["/r/subdir/nested.csv"] "/r" "/r/subdir/nested.csv" = "nested" ∧
    alookup "nested"
      (processFile watchUpdateFS "/r" watchUpdateMgr "/r/subdir/nested.csv").1.db.tables =
      none := by
  decide

def watchDeleteFS : String → FileState := fun _ => FileState.missing

def watchDeleteMgr : Manager :=
  ⟨⟨[("x", ⟨["col"], [["v"]]⟩)], [("x", ("/r/sub/x.csv", 7))]⟩, [("x", 7)]⟩

/-- C2: deleting a tracked subdirectory file that was loaded under its
base name does not remove its table.  The file `sub/x.csv` is tracked
under the table name `x`; after its source disappears, the
reconciliation resolves the deprecated full-path name `sub_x` instead of
the last-known name, "removes" that absent table, fires the `DELETE`
callback anyway — and `x` is still in `ListTables` and still
queryable. -/
theorem watcher_delete_divergence :
    GetTableName "/r/sub/x.csv" "/r" = "sub_x" ∧
    (processFile watchDeleteFS "/r" watchDeleteMgr "/r/sub/x.csv").2 =
      [("DELETE", "/r/sub/x.csv")] ∧
    ListTables (processFile watchDeleteFS "/r" watchDeleteMgr "/r/sub/x.csv").1 = ["x"] ∧
    QueryTable (processFile watchDeleteFS "/r" watchDeleteMgr "/r/sub/x.csv").1 "x" =
      some (["col"], [["v"]]) := by
  decide

/-! ## The metadata cache invariant (C10) -/

/-- The in-memory stamp cache agrees, as a map, with the
`(table_name → mod_time)` projection of the persisted metadata table. -/
def MetaInv (m : Manager) : Prop :=
  ∀ t, alookup t m.metadata = alookup t (metaProj m.db.metaTable)

theorem alookup_metaProj (t : String) (l : List (String × String × Int)) :
    alookup t (metaProj l) = (alookup t l).map (fun v => v.2) := by
  induction l with
  | nil => rfl
  | cons r tl ih =>
    by_cases h : r.1 = t
    · simp [metaProj, alookup, h]
    · simp [metaProj, alookup, h] at ih ⊢
      exact ih

theorem renameKey_of_alookup_none {β : Type} (o n : String) (l : List (String × β))
    (h : alookup o l = none) : renameKey o n l = l := by
  induction l with
  | nil => rfl
  | cons e t ih =>
    by_cases he : e.1 = o
    · simp [alookup, he] at h
    · simp [alookup, he] at h
      simp [renameKey, he, ih h]

theorem alookup_renameKey_old {β : Type} (o n : String) (l : List (String × β))
    (h : o ≠ n) : alookup o (renameKey o n l) = none := by
  induction l with
  | nil => rfl
  | cons e t ih =>
    by_cases he : e.1 = o
    · simpa [renameKey, he, alookup, Ne.symm h] using ih
    · simpa [renameKey, he, alookup] using ih

theorem alookup_renameKey_new {β : Type} (o n : String) (l : List (String × β))
    (hn : alookup n l = none) : alookup n (renameKey o n l) = alookup o l := by
  induction l with
  | nil => rfl
  | cons e t ih =>
    have hen : ¬ e.1 = n := by
      intro hc
      simp [alookup, hc] at hn
    have hn' : alookup n t = none := by simpa [alookup, hen] using hn
    by_cases he : e.1 = o
    · simp [renameKey, he, alookup]
    · simp [renameKey, he, alookup, hen, ih hn']

theorem alookup_renameKey_other {β : Type} (o n t : String) (l : List (String × β))
    (ho : t ≠ o) (hn : t ≠ n) : alookup t (renameKey o n l) = alookup t l := by
  induction l with
  | nil => rfl
  | cons e tl ih =>
    by_cases he : e.1 = o
    · have h1 : ¬ n = t := fun hc => hn hc.symm
      have h2 : ¬ e.1 = t := fun hc => ho (hc.symm.trans he)
      have h3 : ¬ o = t := fun hc => ho hc.symm
      simp [renameKey, alookup, he, h1, h2, h3, ih]
    · by_cases het : e.1 = t <;> simp [renameKey, alookup, he, het, ho, ih]

theorem metaProj_renameKey (o n : String) (l : List (String × String × Int)) :
    metaProj (renameKey o n l) = renameKey o n (metaProj l) := by
  induction l with
  | nil => rfl
  | cons r t ih =>
    by_cases h : r.1 = o
    · simp [metaProj, renameKey, h]
      simpa [metaProj, renameKey] using ih
    · simp [metaProj, renameKey, h]
      simpa [metaProj, renameKey] using ih

/-- Number of metadata rows carrying a given source path. -/
def pathCount (fp : String) : List (String × String × Int) → Nat
  | [] => 0
  | r :: t => (if r.2.1 = fp then 1 else 0) + pathCount fp t

/-- The primary-key property of `_csvql_metadata`: distinct rows carry
distinct table names. -/
abbrev KeysNodup (l : List (String × String × Int)) : Prop :=
  (l.map (fun r => r.1)).Nodup

theorem eraseByPath_of_count_zero (l : List (String × String × Int)) (fp : String)
    (h : pathCount fp l = 0) : eraseByPath fp l = l := by
  induction l with
  | nil => rfl
  | cons r t ih =>
    by_cases hr : r.2.1 = fp
    · simp [pathCount, hr] at h
    · simp [pathCount, hr] at h
      simp [eraseByPath, hr, ih h]

theorem firstNameWithPath_mem_keys (l : List (String × String × Int)) (fp t0 : String)
    (h : firstNameWithPath l fp = some t0) : t0 ∈ l.map (fun r => r.1) := by
  induction l with
  | nil => simp [firstNameWithPath] at h
  | cons r t ih =>
    by_cases hr : r.2.1 = fp
    · simp [firstNameWithPath, hr] at h
      simp [h]
    · simp [firstNameWithPath, hr] at h
      simp [ih h]

theorem alookup_eq_none_of_forall_ne {β : Type} (k : String) (l : List (String × β))
    (h : ∀ e ∈ l, e.1 ≠ k) : alookup k l = none := by
  induction l with
  | nil => rfl
  | cons e t ih =>
    simp [alookup, h e (List.mem_cons_self e t),
      ih (fun x hx => h x (List.mem_cons_of_mem e hx))]

/-- With unique table names and at most one row carrying the path, the
path-keyed `DELETE` removes exactly the row whose name the lookup
returned. -/
theorem eraseByPath_eq_aerase (l : List (String × String × Int)) (fp t0 : String)
    (hfn : firstNameWithPath l fp = some t0) (hnd : KeysNodup l)
    (hpc : pathCount fp l ≤ 1) :
    eraseByPath fp l = aerase t0 l := by
  induction l with
  | nil => simp [firstNameWithPath] at hfn
  | cons r t ih =>
    rw [KeysNodup, List.map_cons, List.nodup_cons] at hnd
    by_cases hr : r.2.1 = fp
    · simp [firstNameWithPath, hr] at hfn
      have hpc0 : pathCount fp t = 0 := by
        simp [pathCount, hr] at hpc
        omega
      have h1 : alookup r.1 t = none :=
        alookup_eq_none_of_forall_ne r.1 t (fun e he hc =>
          hnd.1 (hc ▸ List.mem_map_of_mem (fun r => r.1) he))
      simp [eraseByPath, hr, aerase, hfn, eraseByPath_of_count_zero t fp hpc0,
        aerase_of_alookup_none _ _ (hfn ▸ h1)]
    · simp [firstNameWithPath, hr] at hfn
      have ht0 : t0 ∈ t.map (fun r => r.1) := firstNameWithPath_mem_keys t fp t0 hfn
      have hne : ¬ r.1 = t0 := fun hc => hnd.1 (hc ▸ ht0)
      have hpc' : pathCount fp t ≤ 1 := by
        simpa [pathCount, hr] using hpc
      simp [eraseByPath, hr, aerase, hne, ih hfn hnd.2 hpc']

def conflictLoadA : ParsedFile := ⟨⟨"/r/a/x.csv", "x", ',', ["h"], 1⟩, [["v"]]⟩

def conflictLoadB : ParsedFile := ⟨⟨"/r/a/x.csv", "a_x", ',', ["h"], 2⟩, [["v"]]⟩

/-- The reachable state after loading the same source path under two
names (first its base name, then — after a conflict appeared — its full
name) and then removing by path. -/
def conflictMgr : Manager :=
  (LoadFile (LoadFile (NewManager ⟨[], []⟩) conflictLoadA none).1 conflictLoadB none).1

/-- C10 counterexample: the cache/projection equality is not preserved
by every operation.  After loading `/r/a/x.csv` as `x` and then as
`a_x` (two metadata rows with the same path — each load preserves the
invariant), a successful `RemoveTableByPath` deletes **both** rows from
the persisted table but only the looked-up name `x` from the cache: the
cache still answers a stamp for `a_x` while the projection has none. -/
theorem metadata_cache_divergence :
    MetaInv conflictMgr ∧
    (RemoveTableByPath conflictMgr "/r/a/x.csv" none).2 = none ∧
    alookup "a_x" (RemoveTableByPath conflictMgr "/r/a/x.csv" none).1.metadata = some 2 ∧
    alookup "a_x" (metaProj (RemoveTableByPath conflictMgr "/r/a/x.csv" none).1.db.metaTable) =
      none ∧
    ¬ MetaInv (RemoveTableByPath conflictMgr "/r/a/x.csv" none).1 := by
  refine ⟨fun t => ?_, by decide, by decide, by decide, fun h => absurd (h "a_x") (by decide)⟩
  show alookup t [("x", (1 : Int)), ("a_x", (2 : Int))] =
    alookup t (metaProj [("x", ("/r/a/x.csv", (1 : Int))), ("a_x", ("/r/a/x.csv", (2 : Int)))])
  rfl

/-- C10 amended: the cache/projection equality is an invariant of
construction, `LoadFile`, `RemoveTable` and `RenameTable` in every
outcome (success or error), and of `RemoveTableByPath` whenever the
metadata table's names are unique (its primary key) and at most one row
carries the removed path; with several rows per path the operation
breaks the equality (see the counterexample). -/
theorem metadata_cache_invariant :
    (∀ db, MetaInv (NewManager db)) ∧
    (∀ (m : Manager) (p : ParsedFile) (fail : Option LoadFail),
      MetaInv m → MetaInv (LoadFile m p fail).1) ∧
    (∀ (m : Manager) (tn : String) (fail : Option RemoveFail),
      MetaInv m → MetaInv (RemoveTable m tn fail).1) ∧
    (∀ (m : Manager) (o n : String) (fail : Option RenameFail),
      MetaInv m → MetaInv (RenameTable m o n fail).1) ∧
    (∀ (m : Manager) (fp : String) (fail : Option RemoveByPathFail),
      MetaInv m → KeysNodup m.db.metaTable → pathCount fp m.db.metaTable ≤ 1 →
      MetaInv (RemoveTableByPath m fp fail).1) := by
  refine ⟨fun db t => rfl, ?_, ?_, ?_, ?_⟩
  · -- LoadFile preserves the invariant
    intro m p fail hinv
    cases fail with
    | some x =>
      rw [(LoadFile_fail_eq m p x).1]
      exact hinv
    | none =>
      by_cases hd : hasDup (buildColumnNames p.info.headers) = true
      · rw [LoadFile_dup_eq m p hd]
        exact hinv
      · rw [LoadFile_none_eq m p (by simpa using hd)]
        intro t
        show alookup t (ainsert p.info.tableName p.info.modTime m.metadata) =
          alookup t (metaProj
            (ainsert p.info.tableName (p.info.path, p.info.modTime) m.db.metaTable))
        rw [metaProj_ainsert]
        by_cases ht : t = p.info.tableName
        · rw [ht, alookup_ainsert_self, alookup_ainsert_self]
        · rw [alookup_ainsert_ne _ _ _ _ ht, alookup_ainsert_ne _ _ _ _ ht]
          exact hinv t
  · -- RemoveTable preserves the invariant, failed statements included
    intro m tn fail hinv
    cases fail with
    | some x => cases x with
      | atDrop => exact hinv
      | atDelete => exact hinv
    | none =>
      intro t
      show alookup t (aerase tn m.metadata) =
        alookup t (metaProj (aerase tn m.db.metaTable))
      rw [metaProj_aerase]
      by_cases ht : t = tn
      · rw [ht, alookup_aerase_self, alookup_aerase_self]
      · rw [alookup_aerase_ne _ _ _ ht, alookup_aerase_ne _ _ _ ht]
        exact hinv t
  · -- RenameTable preserves the invariant
    intro m o n fail hinv
    by_cases h1 : o = n
    · simp only [RenameTable, if_pos h1]
      exact hinv
    simp only [RenameTable, if_neg h1]
    by_cases h2 : fail = some RenameFail.atAlter
    · simp only [if_pos h2]
      exact hinv
    simp only [if_neg h2]
    by_cases h3 : (alookup o m.db.tables).isNone = true
    · simp only [h3, if_true]
      exact hinv
    simp only [h3, Bool.false_eq_true, if_false]
    by_cases h4 : (alookup n m.db.tables).isSome = true
    · simp only [h4, if_true]
      exact hinv
    simp only [h4, Bool.false_eq_true, if_false]
    by_cases h5 : fail = some RenameFail.atUpdate
    · simp only [if_pos h5]
      exact hinv
    simp only [if_neg h5]
    by_cases h6 : ((alookup o m.db.metaTable).isSome && (alookup n m.db.metaTable).isSome) = true
    · simp only [h6, if_true]
      exact hinv
    simp only [h6, Bool.false_eq_true, if_false]
    cases hM : alookup o m.metadata with
    | none =>
      have hol : alookup o m.db.metaTable = none := by
        have h := (hinv o).symm.trans hM
        rw [alookup_metaProj] at h
        exact Option.map_eq_none.mp h
      simp only [hM]
      intro t
      show alookup t m.metadata = alookup t (metaProj (renameKey o n m.db.metaTable))
      rw [renameKey_of_alookup_none o n _ hol]
      exact hinv t
    | some v =>
      have holp : alookup o (metaProj m.db.metaTable) = some v := (hinv o).symm.trans hM
      have hol : (alookup o m.db.metaTable).isSome = true := by
        rw [alookup_metaProj] at holp
        cases hx : alookup o m.db.metaTable with
        | none => rw [hx] at holp; simp at holp
        | some w => rfl
      have hnl : alookup n m.db.metaTable = none := by
        cases hx : alookup n m.db.metaTable with
        | none => rfl
        | some w => rw [hol, hx] at h6; simp at h6
      have hnlp : alookup n (metaProj m.db.metaTable) = none := by
        rw [alookup_metaProj, hnl]
        rfl
      simp only [hM]
      intro t
      show alookup t (ainsert n v (aerase o m.metadata)) =
        alookup t (metaProj (renameKey o n m.db.metaTable))
      rw [metaProj_renameKey]
      by_cases htn : t = n
      · rw [htn, alookup_ainsert_self, alookup_renameKey_new o n _ hnlp, holp]
      by_cases hto : t = o
      · rw [hto, alookup_ainsert_ne n o v (aerase o m.metadata) h1,
          alookup_aerase_self, alookup_renameKey_old o n _ h1]
      · rw [alookup_ainsert_ne _ _ _ _ htn, alookup_aerase_ne _ _ _ hto,
          alookup_renameKey_other o n t _ hto htn]
        exact hinv t
  · -- RemoveTableByPath preserves the invariant for unique names and a
    -- unique row per path
    intro m fp fail hinv hnd hpc
    cases hfn : firstNameWithPath m.db.metaTable fp with
    | none =>
      simp only [RemoveTableByPath, hfn]
      exact hinv
    | some t0 =>
      simp only [RemoveTableByPath, hfn]
      by_cases h2 : fail = some RemoveByPathFail.atDrop
      · simp only [if_pos h2]
        exact hinv
      simp only [if_neg h2]
      by_cases h3 : fail = some RemoveByPathFail.atDelete
      · simp only [if_pos h3]
        exact hinv
      simp only [if_neg h3]
      intro t
      show alookup t (aerase t0 m.metadata) =
        alookup t (metaProj (eraseByPath fp m.db.metaTable))
      rw [eraseByPath_eq_aerase _ fp t0 hfn hnd hpc, metaProj_aerase]
      by_cases ht : t = t0
      · rw [ht, alookup_aerase_self, alookup_aerase_self]
      · rw [alookup_aerase_ne _ _ _ ht, alookup_aerase_ne _ _ _ ht]
        exact hinv t

/-- Witness for C10's amended statement: the invariant holds after the
demo load over a fresh store, and after a by-path removal whose path is
carried by a single metadata row. -/
theorem metadata_cache_invariant_witness :
    MetaInv (LoadFile (NewManager ⟨[], []⟩) loadDemoParsed none).1 ∧
    MetaInv (RemoveTableByPath removeDemoMgr "/r/t.csv" none).1 :=
  ⟨metadata_cache_invariant.2.1 (NewManager ⟨[], []⟩) loadDemoParsed none (fun _ => rfl),
   metadata_cache_invariant.2.2.2.2 removeDemoMgr "/r/t.csv" none (fun _ => rfl)
     (by decide) (by decide)⟩

/-! ## Debounce lemmas (C8) -/

theorem pendingOf_append (p : String) (l₁ l₂ : List (String × Nat)) :
    pendingOf p (l₁ ++ l₂) = pendingOf p l₁ ++ pendingOf p l₂ := by
  induction l₁ with
  | nil => rfl
  | cons e t ih => by_cases h : e.1 = p <;> simp [pendingOf, h, ih]

theorem pendingOf_aerase_self (p : String) (st : List (String × Nat)) :
    pendingOf p (aerase p st) = [] := by
  induction st with
  | nil => rfl
  | cons e t ih => by_cases h : e.1 = p <;> simp [pendingOf, aerase, h, ih]

theorem pendingOf_aerase_ne (p q : String) (st : List (String × Nat)) (h : q ≠ p) :
    pendingOf p (aerase q st) = pendingOf p st := by
  induction st with
  | nil => rfl
  | cons e t ih =>
    by_cases he : e.1 = q
    · have h2 : ¬ e.1 = p := fun hc => h (he.symm.trans hc)
      simp [pendingOf, aerase, he, h2, h, ih]
    · by_cases hep : e.1 = p <;>
        simp [pendingOf, aerase, he, hep, h, Ne.symm h, ih]

theorem pendingOf_ainsert_self (p : String) (t : Nat) (st : List (String × Nat)) :
    pendingOf p (ainsert p t st) = [(p, t)] := by
  rw [ainsert, pendingOf_append, pendingOf_aerase_self]
  simp [pendingOf]

theorem pendingOf_ainsert_ne (p q : String) (t : Nat) (st : List (String × Nat)) (h : q ≠ p) :
    pendingOf p (ainsert q t st) = pendingOf p st := by
  rw [ainsert, pendingOf_append, pendingOf_aerase_ne p q st h]
  simp [pendingOf, h]

theorem pendingOf_filter (p : String) (c : String × Nat → Bool) (st : List (String × Nat)) :
    pendingOf p (st.filter c) = (pendingOf p st).filter c := by
  induction st with
  | nil => rfl
  | cons e t ih =>
    by_cases he : e.1 = p
    · by_cases hc : c e = true <;> simp [pendingOf, List.filter_cons, he, hc, ih]
    · by_cases hc : c e = true <;> simp [pendingOf, List.filter_cons, he, hc, ih]

/-- Counting one path in a sweep's promoted-path list only needs that
path's pending entries. -/
theorem count_promoted (p : String) (c : String × Nat → Bool) (st : List (String × Nat)) :
    List.count p ((st.filter c).map (fun e => e.1)) =
      ((pendingOf p st).filter c).length := by
  induction st with
  | nil => rfl
  | cons e t ih =>
    by_cases he : e.1 = p
    · by_cases hc : c e = true <;>
        simp [pendingOf, List.filter_cons, List.count_cons, he, hc, ih]
    · by_cases hc : c e = true <;>
        simp [pendingOf, List.filter_cons, List.count_cons, he, hc, ih]

theorem runWatch_append (st : List (String × Nat)) (l₁ l₂ : List WEvent) :
    runWatch st (l₁ ++ l₂) =
      ((runWatch (runWatch st l₁).1 l₂).1,
       (runWatch st l₁).2 ++ (runWatch (runWatch st l₁).1 l₂).2) := by
  induction l₁ generalizing st with
  | nil => simp [runWatch]
  | cons e t ih => simp [runWatch, ih]

/-- During a burst whose events all fall within one quiet window of
`t0`, with every raw event for `p` at `t0` or later, no sweep promotes
`p`: `p`'s pending entry just tracks the latest raw event, and it is
present as soon as one raw event for `p` was seen. -/
theorem watch_burst (p : String) (t0 : Nat) (hdata : isDataFile p = true) :
    ∀ (burst : List WEvent) (st : List (String × Nat)) (o : Option Nat),
    (∀ e ∈ burst, timeOf e ≤ t0 + quietWindow) →
    burst.all (rawFloor p t0) = true →
    pendingOf p st = (o.map (fun v => (p, v))).toList →
    (∀ v, o = some v → t0 ≤ v ∧ v ≤ t0 + quietWindow) →
    ∃ o' : Option Nat,
      List.count p (runWatch st burst).2 = 0 ∧
      pendingOf p (runWatch st burst).1 = (o'.map (fun v => (p, v))).toList ∧
      (∀ v, o' = some v → t0 ≤ v ∧ v ≤ t0 + quietWindow) ∧
      ((o.isSome = true ∨ burst.any (isRawOf p) = true) → o'.isSome = true) := by
  intro burst
  induction burst with
  | nil =>
    intro st o _ _ hsh hbd
    refine ⟨o, by simp [runWatch], by simpa [runWatch] using hsh, hbd, ?_⟩
    rintro (h | h)
    · exact h
    · simp at h
  | cons e rest ih =>
    intro st o hub hfl hsh hbd
    have hube : timeOf e ≤ t0 + quietWindow := hub e (List.mem_cons_self e rest)
    have hubr : ∀ x ∈ rest, timeOf x ≤ t0 + quietWindow :=
      fun x hx => hub x (List.mem_cons_of_mem e hx)
    rw [List.all_cons, Bool.and_eq_true] at hfl
    cases e with
    | raw q t =>
      by_cases hq : q = p
      · subst hq
        have ht0 : t0 ≤ t := by
          have := hfl.1
          simpa [rawFloor] using this
        have ht1 : t ≤ t0 + quietWindow := by simpa [timeOf] using hube
        obtain ⟨o', h1, h2, h3, h4⟩ := ih (ainsert q t st) (some t) hubr hfl.2
          (by simp [pendingOf_ainsert_self q t st, hdata]) (fun v hv => by
            cases hv
            exact ⟨ht0, ht1⟩)
        refine ⟨o', ?_, ?_, h3, ?_⟩
        · simpa [runWatch, stepWatch, hdata] using h1
        · simpa [runWatch, stepWatch, hdata] using h2
        · intro _
          exact h4 (Or.inl rfl)
      · obtain ⟨o', h1, h2, h3, h4⟩ := ih
          (if isDataFile q then ainsert q t st else st) o hubr hfl.2
          (by
            by_cases hdq : isDataFile q = true
            · simpa [hdq, pendingOf_ainsert_ne p q t st hq] using hsh
            · simpa [hdq] using hsh) hbd
        refine ⟨o', ?_, ?_, h3, ?_⟩
        · simpa [runWatch, stepWatch] using h1
        · simpa [runWatch, stepWatch] using h2
        · rintro (h | h)
          · exact h4 (Or.inl h)
          · refine h4 (Or.inr ?_)
            simpa [isRawOf, hq] using h
    | sweep now =>
      have hnow : now ≤ t0 + quietWindow := by simpa [timeOf] using hube
      have hkeep : ∀ v, o = some v →
          (decide (quietWindow < now - v) = false) := by
        intro v hv
        obtain ⟨hv0, _⟩ := hbd v hv
        simp only [decide_eq_false_iff_not]
        omega
      have hcnt : List.count p ((stepWatch st (WEvent.sweep now)).2) = 0 := by
        simp only [stepWatch]
        rw [count_promoted p _ st, hsh]
        cases o with
        | none => simp
        | some v => simp [hkeep v rfl]
      have hpend : pendingOf p (stepWatch st (WEvent.sweep now)).1 =
          (o.map (fun v => (p, v))).toList := by
        simp only [stepWatch]
        rw [pendingOf_filter, hsh]
        cases o with
        | none => simp
        | some v => simp [hkeep v rfl]
      obtain ⟨o', h1, h2, h3, h4⟩ := ih (stepWatch st (WEvent.sweep now)).1 o hubr hfl.2
        hpend hbd
      refine ⟨o', ?_, h2, h3, ?_⟩
      · have : runWatch st (WEvent.sweep now :: rest) =
            ((runWatch (stepWatch st (WEvent.sweep now)).1 rest).1,
             (stepWatch st (WEvent.sweep now)).2 ++
               (runWatch (stepWatch st (WEvent.sweep now)).1 rest).2) := rfl
        rw [this]
        simp [List.count_append, hcnt, h1]
      · rintro (h | h)
        · exact h4 (Or.inl h)
        · refine h4 (Or.inr ?_)
          simpa [isRawOf] using h

/-- After `p`'s entry is gone and no further raw events for `p` arrive,
no later sweep promotes `p` again. -/
theorem watch_drain (p : String) :
    ∀ (rest : List WEvent) (st : List (String × Nat)),
    rest.all (fun e => !(isRawOf p e)) = true →
    pendingOf p st = [] →
    List.count p (runWatch st rest).2 = 0 := by
  intro rest
  induction rest with
  | nil => intro st _ _; simp [runWatch]
  | cons e t ih =>
    intro st hall hsh
    rw [List.all_cons, Bool.and_eq_true] at hall
    cases e with
    | raw q tm =>
      have hq : q ≠ p := by
        intro hc
        simp [isRawOf, hc] at hall
      have : pendingOf p (if isDataFile q then ainsert q tm st else st) = [] := by
        by_cases hdq : isDataFile q = true
        · simpa [hdq, pendingOf_ainsert_ne p q tm st hq] using hsh
        · simpa [hdq] using hsh
      simpa [runWatch, stepWatch] using ih _ hall.2 this
    | sweep now =>
      have hcnt : List.count p ((stepWatch st (WEvent.sweep now)).2) = 0 := by
        simp only [stepWatch]
        rw [count_promoted p _ st, hsh]
        simp
      have hpend : pendingOf p (stepWatch st (WEvent.sweep now)).1 = [] := by
        simp only [stepWatch]
        rw [pendingOf_filter, hsh]
        simp
      have : runWatch st (WEvent.sweep now :: t) =
          ((runWatch (stepWatch st (WEvent.sweep now)).1 t).1,
           (stepWatch st (WEvent.sweep now)).2 ++
             (runWatch (stepWatch st (WEvent.sweep now)).1 t).2) := rfl
      rw [this]
      simp [List.count_append, hcnt, ih _ hall.2 hpend]

/-- With `p` pending at time `v`, no further raw events for `p`, and
some sweep later than `v` plus the quiet window, the sweeps promote `p`
exactly once. -/
theorem watch_promote (p : String) :
    ∀ (rest : List WEvent) (st : List (String × Nat)) (v : Nat),
    rest.all (fun e => !(isRawOf p e)) = true →
    rest.any (lateSweep (v + quietWindow)) = true →
    pendingOf p st = [(p, v)] →
    List.count p (runWatch st rest).2 = 1 := by
  intro rest
  induction rest with
  | nil =>
    intro st v _ hany _
    simp at hany
  | cons e t ih =>
    intro st v hall hany hsh
    rw [List.all_cons, Bool.and_eq_true] at hall
    cases e with
    | raw q tm =>
      have hq : q ≠ p := by
        intro hc
        simp [isRawOf, hc] at hall
      have hany' : t.any (lateSweep (v + quietWindow)) = true := by
        simpa [lateSweep] using hany
      have hsh' : pendingOf p (if isDataFile q then ainsert q tm st else st) = [(p, v)] := by
        by_cases hdq : isDataFile q = true
        · simpa [hdq, pendingOf_ainsert_ne p q tm st hq] using hsh
        · simpa [hdq] using hsh
      simpa [runWatch, stepWatch] using ih _ v hall.2 hany' hsh'
    | sweep now =>
      have hsplit : runWatch st (WEvent.sweep now :: t) =
          ((runWatch (stepWatch st (WEvent.sweep now)).1 t).1,
           (stepWatch st (WEvent.sweep now)).2 ++
             (runWatch (stepWatch st (WEvent.sweep now)).1 t).2) := rfl
      by_cases hc : quietWindow < now - v
      · have hcnt : List.count p ((stepWatch st (WEvent.sweep now)).2) = 1 := by
          simp only [stepWatch]
          rw [count_promoted p _ st, hsh]
          simp [hc]
        have hpend : pendingOf p (stepWatch st (WEvent.sweep now)).1 = [] := by
          simp only [stepWatch]
          rw [pendingOf_filter, hsh]
          simp [hc]
        rw [hsplit]
        simp [List.count_append, hcnt, watch_drain p t _ hall.2 hpend]
      · have hcnt : List.count p ((stepWatch st (WEvent.sweep now)).2) = 0 := by
          simp only [stepWatch]
          rw [count_promoted p _ st, hsh]
          simp [hc]
        have hpend : pendingOf p (stepWatch st (WEvent.sweep now)).1 = [(p, v)] := by
          simp only [stepWatch]
          rw [pendingOf_filter, hsh]
          simp [hc]
        have hany' : t.any (lateSweep (v + quietWindow)) = true := by
          have hns : lateSweep (v + quietWindow) (WEvent.sweep now) = false := by
            simp only [lateSweep, decide_eq_false_iff_not]
            omega
          simpa [hns] using hany
        rw [hsplit]
        simp [List.count_append, hcnt, ih _ v hall.2 hany' hpend]

/-- C8: debounce collapsing.  Take any trace `burst ++ rest` where the
burst holds the `N ≥ 1` raw write events for a recognized path `p`, all
burst events (raw events and interleaved sweeps) fall within one quiet
window of the first write at `t0`, and afterwards `p` stays silent while
the sweeps keep ticking (one of them later than `t0` + twice the quiet
window).  Then the whole run promotes `p` exactly once — one
reconciliation, not `N` — and the dispatched reconciliation of an
existing, parseable file fires exactly one `UPDATE` callback. -/
theorem debounce_collapse (p : String) (t0 : Nat) (st0 : List (String × Nat))
    (burst rest : List WEvent)
    (hdata : isDataFile p = true)
    (hst0 : pendingOf p st0 = [])
    (hraw : burst.any (isRawOf p) = true)
    (hub : ∀ e ∈ burst, timeOf e ≤ t0 + quietWindow)
    (hfl : burst.all (rawFloor p t0) = true)
    (hrest : rest.all (fun e => !(isRawOf p e)) = true)
    (hlate : rest.any (lateSweep (t0 + 2 * quietWindow)) = true) :
    List.count p (runWatch st0 (burst ++ rest)).2 = 1 ∧
    (∀ (fs : String → FileState) (root : String) (m : Manager)
       (hd : List String) (rows : List (List String)) (mt : Int),
       fs p = FileState.content (hd :: rows) mt →
       hasDup (buildColumnNames hd) = false →
       (processFile fs root m p).2 = [("UPDATE", p)]) := by
  constructor
  · obtain ⟨o', h1, h2, h3, h4⟩ := watch_burst p t0 hdata burst st0 none hub hfl
      (by simpa using hst0) (fun v hv => by cases hv)
    have ho' : o'.isSome = true := h4 (Or.inr hraw)
    obtain ⟨v, hv⟩ := Option.isSome_iff_exists.mp ho'
    obtain ⟨hv0, hv1⟩ := h3 v hv
    rw [hv] at h2
    have hlate' : rest.any (lateSweep (v + quietWindow)) = true := by
      rw [List.any_eq_true] at hlate ⊢
      obtain ⟨e, he, hp⟩ := hlate
      refine ⟨e, he, ?_⟩
      cases e with
      | raw _ _ => simp [lateSweep] at hp
      | sweep s =>
        simp only [lateSweep, decide_eq_true_eq] at hp ⊢
        simp only [quietWindow] at hp hv1 ⊢
        omega
    rw [runWatch_append, List.count_append, h1,
      watch_promote p rest _ v hrest hlate' (by simpa using h2)]
  · intro fs root m hd rows mt hfs hnd
    have hparse : ParseFile fs p root = some
        { info := { path := p, tableName := GetFullTableName p root,
                    delimiter := DetectDelimiter p, headers := hd, modTime := mt },
          records := rows } := by
      simp [ParseFile, hfs]
    have hload := LoadFile_none_eq m
      { info := { path := p, tableName := GetFullTableName p root,
                  delimiter := DetectDelimiter p, headers := hd, modTime := mt },
        records := rows } (by simpa using hnd)
    simp [processFile, hfs, hparse, hload]

/-- Witness for C8: three raw writes at 0, 100 and 200 ms with sweeps at
100, 500 and 700 ms yield exactly one promotion, and the promoted
reconciliation of a live file fires one `UPDATE`. -/
theorem debounce_collapse_witness :
    List.count "/r/a.csv" (runWatch []
      ([WEvent.raw "/r/a.csv" 0, WEvent.sweep 100, WEvent.raw "/r/a.csv" 100,
        WEvent.raw "/r/a.csv" 200] ++ [WEvent.sweep 500, WEvent.sweep 700])).2 = 1 ∧
    (processFile (fun _ => FileState.content [["id"], ["1"]] 3) "/r"
        ⟨⟨[], []⟩, []⟩ "/r/a.csv").2 = [("UPDATE", "/r/a.csv")] :=
  ⟨(debounce_collapse "/r/a.csv" 0 []
      [WEvent.raw "/r/a.csv" 0, WEvent.sweep 100, WEvent.raw "/r/a.csv" 100,
        WEvent.raw "/r/a.csv" 200] [WEvent.sweep 500, WEvent.sweep 700]
      (by decide) rfl (by decide) (by decide) (by decide) (by decide) (by decide)).1,
   (debounce_collapse "/r/a.csv" 0 []
      [WEvent.raw "/r/a.csv" 0, WEvent.sweep 100, WEvent.raw "/r/a.csv" 100,
        WEvent.raw "/r/a.csv" 200] [WEvent.sweep 500, WEvent.sweep 700]
      (by decide) rfl (by decide) (by decide) (by decide) (by decide) (by decide)).2
     (fun _ => FileState.content [["id"], ["1"]] 3) "/r" ⟨⟨[], []⟩, []⟩
     ["id"] [["1"]] 3 rfl (by decide)⟩

end Csvql
